import Mathlib

/- Shallow embedding of the speaker-attribution core of
   src/src/enhanced_speaker_attribution.py and of the word-level labelling
   function apply_speaker_labels_to_transcript in src/transcription.py.
   Python floats are modelled as rationals; Python dicts become structures. -/

/-- A raw diarization turn, the dict with keys start, end, speaker built by
_parse_transcription_file.  The source field name end is a Lean keyword and is
rendered stop throughout. -/
structure Turn where
  start : ℚ
  stop : ℚ
  speaker : String
deriving DecidableEq

/-- One element of the overlapping_segments list built inside
_find_speaker_for_time_segment. -/
structure OverlapSeg where
  speaker : String
  overlap_duration : ℚ
  start : ℚ
  stop : ℚ
deriving DecidableEq

/-- The loop body building overlapping_segments in _find_speaker_for_time_segment:
a turn contributes exactly when its overlap with [start_time, end_time] is
strictly positive. -/
def overlapSegOf (start_time end_time : ℚ) (seg : Turn) : Option OverlapSeg :=
  let overlap_start := max start_time seg.start
  let overlap_stop := min end_time seg.stop
  if overlap_start < overlap_stop then
    some { speaker := seg.speaker, overlap_duration := overlap_stop - overlap_start,
           start := seg.start, stop := seg.stop }
  else none

/-- The overlapping_segments list of _find_speaker_for_time_segment: every turn
with strictly positive overlap, in input order. -/
def overlappingSegs (start_time end_time : ℚ) (raw : List Turn) : List OverlapSeg :=
  raw.filterMap (overlapSegOf start_time end_time)

/-- Python max(xs, key=k): fold that replaces the best element only on a strict
increase, hence returns the first maximal element of the list. -/
def pyMaxBy {α : Type} (key : α → ℚ) : α → List α → α
  | best, [] => best
  | best, x :: rest => pyMaxBy key (if key best < key x then x else best) rest

/-- Python min(xs, key=k): fold that replaces the best element only on a strict
decrease, hence returns the first minimal element of the list. -/
def pyMinBy {α : Type} (key : α → ℚ) : α → List α → α
  | best, [] => best
  | best, x :: rest => pyMinBy key (if key x < key best then x else best) rest

/-- The nearest-boundary key of the no-overlap fallback in
_find_speaker_for_time_segment: min(abs(t.start - start_time), abs(t.end - end_time)). -/
def nearestKey (start_time end_time : ℚ) (t : Turn) : ℚ :=
  min |t.start - start_time| |t.stop - end_time|

/-- _find_speaker_for_time_segment.  none models the ValueError Python's min
raises when raw_diarization is empty (callers guard against it). -/
def findSpeakerForTimeSegment (start_time end_time : ℚ) (raw : List Turn) : Option String :=
  match overlappingSegs start_time end_time raw with
  | o :: os => some (pyMaxBy OverlapSeg.overlap_duration o os).speaker
  | [] =>
    match raw with
    | [] => none
    | t :: ts => some (pyMinBy (nearestKey start_time end_time) t ts).speaker

/-- The loop of _estimate_sentence_timings, carrying current_time. -/
def estimateGo (total_chars : ℕ) (total_duration : ℚ) : List String → ℚ → List (String × ℚ × ℚ)
  | [], _ => []
  | s :: rest, current_time =>
    let estimated_duration : ℚ := (s.length : ℚ) / 15
    let scaled_duration : ℚ := estimated_duration * (total_duration / ((total_chars : ℚ) / 15))
    let end_time : ℚ := min (current_time + scaled_duration) total_duration
    (s, current_time, end_time) :: estimateGo total_chars total_duration rest end_time

/-- _estimate_sentence_timings: proportional character-length timing with the
single guard total_chars == 0. -/
def estimateSentenceTimings (sentences : List String) (total_duration : ℚ) :
    List (String × ℚ × ℚ) :=
  let total_chars := (sentences.map String.length).sum
  if total_chars = 0 then [] else estimateGo total_chars total_duration sentences 0

/-- An attributed segment, the dict with keys start, end, speaker, text
(end rendered stop). -/
structure Seg where
  start : ℚ
  stop : ℚ
  speaker : String
  text : String
deriving DecidableEq

/-- The loop of _merge_consecutive_same_speaker, with the open segment
current_segment as accumulator. -/
def mergeLoop (cur : Seg) : List Seg → List Seg
  | [] => [cur]
  | next :: rest =>
    if cur.speaker = next.speaker ∧ |cur.stop - next.start| < 2 then
      mergeLoop { cur with stop := next.stop, text := cur.text ++ " " ++ next.text } rest
    else
      cur :: mergeLoop next rest

/-- _merge_consecutive_same_speaker. -/
def mergeConsecutiveSameSpeaker : List Seg → List Seg
  | [] => []
  | s :: rest => mergeLoop s rest

/-- Python str.split() with no argument: split on runs of whitespace and drop
empty tokens (accumulator holds the current word reversed). -/
def splitWordsAux : List Char → List Char → List String
  | [], acc => if acc.isEmpty then [] else [String.mk acc.reverse]
  | c :: cs, acc =>
    if c.isWhitespace then
      if acc.isEmpty then splitWordsAux cs []
      else String.mk acc.reverse :: splitWordsAux cs []
    else splitWordsAux cs (c :: acc)

/-- transcript_text.split() in apply_speaker_labels_to_transcript. -/
def pySplit (s : String) : List String := splitWordsAux s.data []

/-- The inner loop of apply_speaker_labels_to_transcript: the first diarization
segment with seg.start <= current_time <= seg.end, scanned in list order
(the Python break). -/
def findSpeakerForWord (current_time : ℚ) : List Turn → Option String
  | [] => none
  | seg :: rest =>
    if seg.start ≤ current_time ∧ current_time ≤ seg.stop then some seg.speaker
    else findSpeakerForWord current_time rest

/-- Python truthiness of speaker_for_word / current_speaker (None and the empty
string are falsy). -/
def truthy : Option String → Bool
  | none => false
  | some s => s ≠ ""

/-- How the f-string renders current_speaker: str(None) is the text None. -/
def speakerStr : Option String → String
  | none => "None"
  | some s => s

/-- Python sep.join. -/
def joinSep (sep : String) : List String → String
  | [] => ""
  | [x] => x
  | x :: xs => x ++ sep ++ joinSep sep xs

/-- One output line, the f-string of apply_speaker_labels_to_transcript. -/
def renderLine (current_speaker : Option String) (current_text : List String) : String :=
  "[" ++ speakerStr current_speaker ++ "] " ++ joinSep " " current_text

/-- The mutable loop state of apply_speaker_labels_to_transcript. -/
structure ALState where
  result_lines : List String
  current_speaker : Option String
  current_text : List String
  word_index : ℕ
deriving DecidableEq

/-- Loop body of apply_speaker_labels_to_transcript over one word. -/
def alStep (segs : List Turn) (time_per_word : ℚ) (st : ALState) (word : String) : ALState :=
  let current_time : ℚ := (st.word_index : ℚ) * time_per_word
  let spw := findSpeakerForWord current_time segs
  if truthy spw ∧ spw ≠ st.current_speaker then
    { result_lines :=
        if st.current_text ≠ [] then
          st.result_lines ++ [renderLine st.current_speaker st.current_text]
        else st.result_lines,
      current_speaker := spw,
      current_text := [word],
      word_index := st.word_index + 1 }
  else
    { st with current_text := st.current_text ++ [word], word_index := st.word_index + 1 }

/-- apply_speaker_labels_to_transcript (src/transcription.py). -/
def applySpeakerLabelsToTranscript (transcript_text : String) (diarization_segments : List Turn)
    (audio_duration : ℚ) : String :=
  if diarization_segments = [] then transcript_text
  else
    let words := pySplit transcript_text
    if words = [] then transcript_text
    else
      let time_per_word := audio_duration / (words.length : ℚ)
      let fin := words.foldl (alStep diarization_segments time_per_word)
        { result_lines := [], current_speaker := none, current_text := [], word_index := 0 }
      let lines :=
        if fin.current_text ≠ [] ∧ truthy fin.current_speaker then
          fin.result_lines ++ [renderLine fin.current_speaker fin.current_text]
        else fin.result_lines
      joinSep "\n\n" lines

/-- Overlap duration of turn t with the span [s, e], as the spec writes it:
max 0 (min e t.end - max s t.start). -/
def overlapDuration (s e : ℚ) (t : Turn) : ℚ := max 0 (min e t.stop - max s t.start)

/-- The back-to-back layout the spec describes for the timing estimator: each
unit starts where the previous one ended, with duration c_i / C * D clamped
at D. -/
def laidOut (C D : ℚ) : ℚ → List (String × ℚ × ℚ) → Prop
  | _, [] => True
  | cur, (s, st, en) :: rest =>
    st = cur ∧ en = min (cur + (s.length : ℚ) / C * D) D ∧ laidOut C D en rest

/-- Two adjacent attributed segments that the merge loop would keep apart:
different speakers, or a gap of at least the 2-second threshold. -/
def noFurtherMerge (a b : Seg) : Prop :=
  ¬ (a.speaker = b.speaker ∧ |a.stop - b.start| < 2)

/- ------------------------------------------------------------------ -/
/- Theorems.                                                          -/
/- ------------------------------------------------------------------ -/

theorem mergeLoop_head_fields (l : List Seg) :
    ∀ cur : Seg, ∃ h t, mergeLoop cur l = h :: t ∧
      h.speaker = cur.speaker ∧ h.start = cur.start := by
  induction l with
  | nil => intro cur; exact ⟨cur, [], rfl, rfl, rfl⟩
  | cons next rest ih =>
    intro cur
    by_cases hc : cur.speaker = next.speaker ∧ |cur.stop - next.start| < 2
    · obtain ⟨h, t, heq, hsp, hst⟩ :=
        ih { cur with stop := next.stop, text := cur.text ++ " " ++ next.text }
      exact ⟨h, t, by simp only [mergeLoop, if_pos hc]; exact heq, hsp, hst⟩
    · exact ⟨cur, mergeLoop next rest, by simp only [mergeLoop, if_neg hc], rfl, rfl⟩

theorem mergeLoop_chain (l : List Seg) :
    ∀ cur : Seg, List.Chain' noFurtherMerge (mergeLoop cur l) := by
  induction l with
  | nil => intro cur; simp [mergeLoop]
  | cons next rest ih =>
    intro cur
    by_cases hc : cur.speaker = next.speaker ∧ |cur.stop - next.start| < 2
    · simpa only [mergeLoop, if_pos hc] using ih _
    · simp only [mergeLoop, if_neg hc]
      rw [List.chain'_cons']
      refine ⟨?_, ih next⟩
      intro b hb
      obtain ⟨h, t, heq, hsp, hst⟩ := mergeLoop_head_fields rest next
      rw [heq] at hb
      simp only [List.head?_cons, Option.mem_def, Option.some.injEq] at hb
      subst hb
      unfold noFurtherMerge
      rw [hsp, hst]
      exact hc

theorem mergeLoop_id (l : List Seg) :
    ∀ cur : Seg, List.Chain' noFurtherMerge (cur :: l) → mergeLoop cur l = cur :: l := by
  induction l with
  | nil => intro cur _; rfl
  | cons next rest ih =>
    intro cur hch
    rw [List.chain'_cons] at hch
    obtain ⟨hr, hch2⟩ := hch
    unfold noFurtherMerge at hr
    simp only [mergeLoop, if_neg hr]
    rw [ih next hch2]

/-- C7: applying _merge_consecutive_same_speaker to its own output changes
nothing: in merged output adjacent segments either differ in speaker or lie at
least the 2-second threshold apart, so no further merges are possible. -/
theorem merge_idempotent (segments : List Seg) :
    mergeConsecutiveSameSpeaker (mergeConsecutiveSameSpeaker segments) =
      mergeConsecutiveSameSpeaker segments := by
  cases segments with
  | nil => rfl
  | cons s rest =>
    show mergeConsecutiveSameSpeaker (mergeLoop s rest) = mergeLoop s rest
    obtain ⟨h, t, heq, _, _⟩ := mergeLoop_head_fields rest s
    have hch := mergeLoop_chain rest s
    rw [heq] at hch ⊢
    exact mergeLoop_id t h hch

/-- C3 counterexample: two same-speaker segments whose claimed gap
start2 - end1 = -10 is below the 2-second threshold, so the claim says they
merge; the source compares abs(end1 - start2) = 10 against the threshold and
keeps them apart. -/
theorem merge_signed_gap_cex :
    (Seg.mk 0 10 "A" "x").speaker = (Seg.mk 0 (21/2) "A" "y").speaker ∧
    (Seg.mk 0 (21/2) "A" "y").start - (Seg.mk 0 10 "A" "x").stop < 2 ∧
    mergeConsecutiveSameSpeaker [Seg.mk 0 10 "A" "x", Seg.mk 0 (21/2) "A" "y"] =
      [Seg.mk 0 10 "A" "x", Seg.mk 0 (21/2) "A" "y"] := by
  refine ⟨rfl, by norm_num, by with_unfolding_all decide⟩

/-- C3 (amended): unit i+1 merges into the open segment exactly when the
speakers agree and the absolute difference abs(open.end - start_{i+1}) is
below the 2-second threshold; on merge the end becomes end_{i+1} and the texts
are joined by a single space, otherwise the segment closes and a new one opens. -/
theorem merge_rule_abs_gap (a b : Seg) (rest : List Seg) :
    mergeConsecutiveSameSpeaker (a :: b :: rest) =
      if a.speaker = b.speaker ∧ |a.stop - b.start| < 2 then
        mergeConsecutiveSameSpeaker
          ({ a with stop := b.stop, text := a.text ++ " " ++ b.text } :: rest)
      else a :: mergeConsecutiveSameSpeaker (b :: rest) := by
  simp only [mergeConsecutiveSameSpeaker, mergeLoop]

/-- C6 counterexample: with duration D = 0 (degenerate, D <= 0) and a unit of
5 characters (C > 0) the estimator does not return the empty sequence the
claim requires: there is no guard on D in the source, only on C. -/
theorem estimate_timings_d_guard_cex :
    ((0:ℚ) ≤ 0) ∧ (["hello"].map String.length).sum ≠ 0 ∧
    estimateSentenceTimings ["hello"] 0 = [("hello", 0, 0)] ∧
    estimateSentenceTimings ["hello"] 0 ≠ [] := by
  refine ⟨le_refl 0, by decide, by with_unfolding_all decide, by with_unfolding_all decide⟩

/-- C6 (amended): _estimate_sentence_timings returns the empty sequence exactly
when the total character count C is zero; the duration D is not guarded, and
no error is raised in either case. -/
theorem estimate_timings_empty_iff (sentences : List String) (total_duration : ℚ) :
    estimateSentenceTimings sentences total_duration = [] ↔
      (sentences.map String.length).sum = 0 := by
  unfold estimateSentenceTimings
  by_cases h : (sentences.map String.length).sum = 0
  · simp [h]
  · cases sentences with
    | nil => simp at h
    | cons s rest => simp [h, estimateGo]

theorem estimateST_eq_nil (sentences : List String) (D : ℚ)
    (hC : (sentences.map String.length).sum = 0) :
    estimateSentenceTimings sentences D = [] := by
  unfold estimateSentenceTimings
  exact if_pos hC

theorem estimateST_eq_go (sentences : List String) (D : ℚ)
    (hC : (sentences.map String.length).sum ≠ 0) :
    estimateSentenceTimings sentences D =
      estimateGo ((sentences.map String.length).sum) D sentences 0 := by
  unfold estimateSentenceTimings
  exact if_neg hC

theorem estimateGo_cons (C : ℕ) (D : ℚ) (s : String) (rest : List String) (cur : ℚ) :
    estimateGo C D (s :: rest) cur =
      (s, cur, min (cur + (s.length : ℚ) / 15 * (D / ((C : ℚ) / 15))) D) ::
        estimateGo C D rest (min (cur + (s.length : ℚ) / 15 * (D / ((C : ℚ) / 15))) D) := rfl

theorem estimateGo_map_fst (C : ℕ) (D : ℚ) (l : List String) :
    ∀ cur : ℚ, (estimateGo C D l cur).map Prod.fst = l := by
  induction l with
  | nil => intro cur; rfl
  | cons s rest ih => intro cur; rw [estimateGo_cons]; simp [ih]

theorem estimateGo_laidOut (C : ℕ) (hC : (C : ℚ) ≠ 0) (D : ℚ) (l : List String) :
    ∀ cur : ℚ, laidOut (C : ℚ) D cur (estimateGo C D l cur) := by
  induction l with
  | nil => intro cur; simp [estimateGo, laidOut]
  | cons s rest ih =>
    intro cur
    rw [estimateGo_cons]
    refine ⟨rfl, ?_, ih _⟩
    congr 2
    field_simp
    ring

theorem estimateGo_chain (C : ℕ) (hC : C ≠ 0) (D : ℚ) (hD : 0 ≤ D) (l : List String) :
    ∀ cur : ℚ, cur ≤ D →
      List.Chain' (fun a b => a.2.1 ≤ b.2.1 ∧ b.2.1 = a.2.2) (estimateGo C D l cur) ∧
      (∀ u ∈ estimateGo C D l cur, u.2.2 ≤ D) ∧
      (∀ u ∈ (estimateGo C D l cur).head?, u.2.1 = cur) := by
  induction l with
  | nil =>
    intro cur _
    refine ⟨by simp [estimateGo], by simp [estimateGo], by simp [estimateGo]⟩
  | cons s rest ih =>
    intro cur hcur
    have hC0 : (0:ℚ) < (C:ℚ) := by exact_mod_cast Nat.pos_of_ne_zero hC
    have hdur : 0 ≤ (s.length : ℚ) / 15 * (D / ((C:ℚ) / 15)) := by
      apply mul_nonneg
      · positivity
      · exact div_nonneg hD (by positivity)
    rw [estimateGo_cons]
    set e := min (cur + (s.length : ℚ) / 15 * (D / ((C:ℚ) / 15))) D with he
    have hce : cur ≤ e := le_min (by linarith) hcur
    have heD : e ≤ D := min_le_right _ _
    obtain ⟨ih1, ih2, ih3⟩ := ih e heD
    refine ⟨?_, ?_, ?_⟩
    · rw [List.chain'_cons']
      refine ⟨?_, ih1⟩
      intro b hb
      exact ⟨le_trans hce (le_of_eq (ih3 b hb).symm), ih3 b hb⟩
    · intro u hu
      rcases List.mem_cons.mp hu with h | h
      · rw [h]; exact heD
      · exact ih2 u h
    · intro u hu
      simp only [List.head?_cons, Option.mem_def, Option.some.injEq] at hu
      rw [← hu]

/-- C4 counterexample: with the (unguarded) negative duration D = -1 and two
2-character units, the produced start times are 0 followed by -1, violating
start_i ≤ start_{i+1}; the claim quantifies over every duration. -/
theorem span_monotonicity_cex :
    ((estimateSentenceTimings ["aa", "bb"] (-1)).map fun u => u.2.1) = [0, -1] ∧
    ¬ ((0:ℚ) ≤ -1) := by
  refine ⟨by with_unfolding_all decide, by norm_num⟩

/-- C4 (amended): for every unit sequence and every duration D ≥ 0 the timed
units satisfy start_i ≤ start_{i+1}, each start equals the previous end, and
every end is at most D. -/
theorem span_monotonicity (sentences : List String) (D : ℚ) (hD : 0 ≤ D) :
    List.Chain' (fun a b => a.2.1 ≤ b.2.1 ∧ b.2.1 = a.2.2)
      (estimateSentenceTimings sentences D) ∧
    ∀ u ∈ estimateSentenceTimings sentences D, u.2.2 ≤ D := by
  by_cases hC : (sentences.map String.length).sum = 0
  · rw [estimateST_eq_nil _ _ hC]
    simp
  · rw [estimateST_eq_go _ _ hC]
    obtain ⟨h1, h2, _⟩ := estimateGo_chain _ hC D hD sentences 0 hD
    exact ⟨h1, h2⟩

/-- C4 witness at sentences = ["ab"], D = 1. -/
theorem span_monotonicity_witness :
    (0:ℚ) ≤ 1 ∧
    (List.Chain' (fun a b => a.2.1 ≤ b.2.1 ∧ b.2.1 = a.2.2)
        (estimateSentenceTimings ["ab"] 1) ∧
      ∀ u ∈ estimateSentenceTimings ["ab"] 1, u.2.2 ≤ 1) :=
  ⟨by norm_num, span_monotonicity ["ab"] 1 (by norm_num)⟩

/-- C2: for a unit sequence with positive total character count C and duration
D > 0, the estimator keeps the units in order and lays them out back-to-back
from 0, each unit ending at min(start + c_i / C * D, D). -/
theorem estimate_timings_proportional (sentences : List String) (total_duration : ℚ)
    (hne : sentences ≠ []) (hC : (sentences.map String.length).sum ≠ 0)
    (hD : 0 < total_duration) :
    (estimateSentenceTimings sentences total_duration).map Prod.fst = sentences ∧
    laidOut ((sentences.map String.length).sum : ℚ) total_duration 0
      (estimateSentenceTimings sentences total_duration) := by
  rw [estimateST_eq_go _ _ hC]
  refine ⟨estimateGo_map_fst _ _ _ 0, ?_⟩
  exact estimateGo_laidOut _ (by exact_mod_cast hC) _ _ 0

theorem pyMaxBy_le {α : Type} (key : α → ℚ) (l : List α) :
    ∀ b : α, ∀ x ∈ b :: l, key x ≤ key (pyMaxBy key b l) := by
  induction l with
  | nil =>
    intro b x hx
    rw [List.mem_singleton] at hx
    rw [hx]
    exact le_refl _
  | cons y rest ih =>
    intro b x hx
    show key x ≤ key (pyMaxBy key (if key b < key y then y else b) rest)
    have hbb : key b ≤ key (if key b < key y then y else b) := by
      split
      · exact le_of_lt (by assumption)
      · exact le_refl _
    have hyb : key y ≤ key (if key b < key y then y else b) := by
      split
      · exact le_refl _
      · exact le_of_not_lt (by assumption)
    have hhead : key (if key b < key y then y else b) ≤
        key (pyMaxBy key (if key b < key y then y else b) rest) :=
      ih _ _ (List.mem_cons_self _ _)
    rcases List.mem_cons.mp hx with h | h
    · rw [h]; exact le_trans hbb hhead
    · rcases List.mem_cons.mp h with h2 | h2
      · rw [h2]; exact le_trans hyb hhead
      · exact ih _ x (List.mem_cons_of_mem _ h2)

theorem pyMaxBy_first {α : Type} (key : α → ℚ) (l : List α) :
    ∀ b : α, ∃ l₁ l₂, b :: l = l₁ ++ pyMaxBy key b l :: l₂ ∧
      ∀ x ∈ l₁, key x < key (pyMaxBy key b l) := by
  induction l with
  | nil => intro b; exact ⟨[], [], rfl, by simp⟩
  | cons y rest ih =>
    intro b
    by_cases h : key b < key y
    · have hred : pyMaxBy key b (y :: rest) = pyMaxBy key y rest := by
        show pyMaxBy key (if key b < key y then y else b) rest = _
        rw [if_pos h]
      obtain ⟨l₁, l₂, hdec, hlt⟩ := ih y
      refine ⟨b :: l₁, l₂, ?_, ?_⟩
      · rw [hred, List.cons_append, ← hdec]
      · intro x hx
        rw [hred]
        rcases List.mem_cons.mp hx with h2 | h2
        · rw [h2]
          exact lt_of_lt_of_le h (pyMaxBy_le key rest y y (List.mem_cons_self _ _))
        · exact hlt x h2
    · have hred : pyMaxBy key b (y :: rest) = pyMaxBy key b rest := by
        show pyMaxBy key (if key b < key y then y else b) rest = _
        rw [if_neg h]
      obtain ⟨l₁, l₂, hdec, hlt⟩ := ih b
      cases l₁ with
      | nil =>
        simp only [List.nil_append] at hdec
        refine ⟨[], y :: rest, ?_, by simp⟩
        rw [hred, List.nil_append]
        rw [List.cons.injEq] at hdec
        rw [← hdec.1]
      | cons c l₁t =>
        rw [List.cons_append, List.cons.injEq] at hdec
        refine ⟨b :: y :: l₁t, l₂, ?_, ?_⟩
        · rw [hred, List.cons_append, List.cons_append, ← hdec.2]
        · intro x hx
          rw [hred]
          have hblt : key b < key (pyMaxBy key b rest) := by
            have := hlt c (List.mem_cons_self _ _)
            rw [← hdec.1] at this
            exact this
          rcases List.mem_cons.mp hx with h2 | h2
          · rw [h2]; exact hblt
          · rcases List.mem_cons.mp h2 with h3 | h3
            · rw [h3]; exact lt_of_le_of_lt (le_of_not_lt h) hblt
            · exact hlt x (List.mem_cons_of_mem _ h3)

theorem pyMinBy_mem {α : Type} (key : α → ℚ) (l : List α) :
    ∀ b : α, pyMinBy key b l ∈ b :: l := by
  induction l with
  | nil => intro b; exact List.mem_singleton.mpr rfl
  | cons y rest ih =>
    intro b
    show pyMinBy key (if key y < key b then y else b) rest ∈ _
    rcases List.mem_cons.mp (ih (if key y < key b then y else b)) with h | h
    · rw [h]
      split
      · exact List.mem_cons_of_mem _ (List.mem_cons_self _ _)
      · exact List.mem_cons_self _ _
    · exact List.mem_cons_of_mem _ (List.mem_cons_of_mem _ h)

theorem pyMinBy_le {α : Type} (key : α → ℚ) (l : List α) :
    ∀ b : α, ∀ x ∈ b :: l, key (pyMinBy key b l) ≤ key x := by
  induction l with
  | nil =>
    intro b x hx
    rw [List.mem_singleton] at hx
    rw [hx]
    exact le_refl _
  | cons y rest ih =>
    intro b x hx
    show key (pyMinBy key (if key y < key b then y else b) rest) ≤ key x
    have hbb : key (if key y < key b then y else b) ≤ key b := by
      split
      · exact le_of_lt (by assumption)
      · exact le_refl _
    have hyb : key (if key y < key b then y else b) ≤ key y := by
      split
      · exact le_refl _
      · exact le_of_not_lt (by assumption)
    have hhead : key (pyMinBy key (if key y < key b then y else b) rest) ≤
        key (if key y < key b then y else b) :=
      ih _ _ (List.mem_cons_self _ _)
    rcases List.mem_cons.mp hx with h | h
    · rw [h]; exact le_trans hhead hbb
    · rcases List.mem_cons.mp h with h2 | h2
      · rw [h2]; exact le_trans hhead hyb
      · exact ih _ x (List.mem_cons_of_mem _ h2)

theorem filterMap_decomp {α β : Type} (f : α → Option β) (xs : List α) :
    ∀ (l₁ : List β) (r : β) (l₂ : List β), xs.filterMap f = l₁ ++ r :: l₂ →
      ∃ xs₁ x xs₂, xs = xs₁ ++ x :: xs₂ ∧ f x = some r ∧ xs₁.filterMap f = l₁ := by
  induction xs with
  | nil =>
    intro l₁ r l₂ h
    rw [List.filterMap_nil] at h
    exact absurd h.symm (List.append_ne_nil_of_right_ne_nil l₁ (List.cons_ne_nil r l₂))
  | cons a as ih =>
    intro l₁ r l₂ h
    rw [List.filterMap_cons] at h
    cases hfa : f a with
    | none =>
      rw [hfa] at h
      obtain ⟨xs₁, x, xs₂, hxs, hfx, hfm⟩ := ih l₁ r l₂ h
      refine ⟨a :: xs₁, x, xs₂, by rw [hxs]; rfl, hfx, ?_⟩
      rw [List.filterMap_cons, hfa]
      exact hfm
    | some b =>
      rw [hfa] at h
      cases l₁ with
      | nil =>
        rw [List.nil_append, List.cons.injEq] at h
        exact ⟨[], a, as, rfl, by rw [hfa, h.1], rfl⟩
      | cons c l₁t =>
        rw [List.cons_append, List.cons.injEq] at h
        obtain ⟨xs₁, x, xs₂, hxs, hfx, hfm⟩ := ih l₁t r l₂ h.2
        refine ⟨a :: xs₁, x, xs₂, by rw [hxs]; rfl, hfx, ?_⟩
        rw [List.filterMap_cons, hfa, hfm, h.1]

theorem overlapSegOf_eq_some {s e : ℚ} {t : Turn} {o : OverlapSeg}
    (h : overlapSegOf s e t = some o) :
    max s t.start < min e t.stop ∧ o.speaker = t.speaker ∧
      o.overlap_duration = min e t.stop - max s t.start := by
  simp only [overlapSegOf] at h
  split at h
  · rw [Option.some.injEq] at h
    rw [← h]
    exact ⟨by assumption, rfl, rfl⟩
  · exact absurd h (Option.noConfusion)

theorem overlapSegOf_eq_none {s e : ℚ} {t : Turn}
    (h : overlapSegOf s e t = none) : ¬ (max s t.start < min e t.stop) := by
  simp only [overlapSegOf] at h
  split at h
  · exact absurd h (Option.noConfusion)
  · assumption

theorem overlapDuration_eq_of_some {s e : ℚ} {t : Turn} {o : OverlapSeg}
    (h : overlapSegOf s e t = some o) :
    overlapDuration s e t = o.overlap_duration ∧ 0 < o.overlap_duration := by
  obtain ⟨hlt, _, hdur⟩ := overlapSegOf_eq_some h
  have hpos : 0 < min e t.stop - max s t.start := sub_pos.mpr hlt
  constructor
  · rw [overlapDuration, hdur, max_eq_right hpos.le]
  · rw [hdur]; exact hpos

theorem overlapDuration_eq_zero_of_none {s e : ℚ} {t : Turn}
    (h : overlapSegOf s e t = none) : overlapDuration s e t = 0 := by
  have hle := overlapSegOf_eq_none h
  rw [overlapDuration, max_eq_left]
  rw [not_lt] at hle
  linarith

/-- C2 witness at sentences = ["hello"], D = 3. -/
theorem estimate_timings_proportional_witness :
    (["hello"] : List String) ≠ [] ∧ ((["hello"].map String.length).sum ≠ 0) ∧ (0:ℚ) < 3 ∧
    ((estimateSentenceTimings ["hello"] 3).map Prod.fst = ["hello"] ∧
      laidOut (((["hello"].map String.length).sum : ℕ) : ℚ) 3 0
        (estimateSentenceTimings ["hello"] 3)) :=
  ⟨by decide, by decide, by norm_num,
    estimate_timings_proportional ["hello"] 3 (by decide) (by decide) (by norm_num)⟩

/-- C1 counterexample: span (0,2) with turns [(1,2,"B"), (0,1,"A")] gives both
turns overlap 1 (a tie); the earliest-starting tied turn is the A turn
(start 0), but Python's max keeps the first tied element in list order and the
engine returns "B". -/
theorem overlap_tie_break_cex :
    findSpeakerForTimeSegment 0 2 [Turn.mk 1 2 "B", Turn.mk 0 1 "A"] = some "B" ∧
    overlapDuration 0 2 (Turn.mk 1 2 "B") = overlapDuration 0 2 (Turn.mk 0 1 "A") ∧
    (Turn.mk 0 1 "A").start < (Turn.mk 1 2 "B").start ∧
    ("B" : String) ≠ "A" := by
  refine ⟨by with_unfolding_all decide, by with_unfolding_all decide, by norm_num, by decide⟩

/-- C1 (amended): whenever some turn truly overlaps the unit span, the engine
assigns the speaker of a turn with positive overlap whose overlap duration is
maximal; among tied turns it selects the FIRST in input list order (every turn
before the chosen one has strictly smaller overlap), which equals the
earliest-starting tied turn only when the list is sorted by start. -/
theorem overlap_voting_max_first (s e : ℚ) (turns : List Turn)
    (hov : ∃ t ∈ turns, max s t.start < min e t.stop) :
    ∃ t₁ t t₂, turns = t₁ ++ t :: t₂ ∧
      findSpeakerForTimeSegment s e turns = some t.speaker ∧
      0 < overlapDuration s e t ∧
      (∀ u ∈ turns, overlapDuration s e u ≤ overlapDuration s e t) ∧
      (∀ u ∈ t₁, overlapDuration s e u < overlapDuration s e t) := by
  obtain ⟨t0, ht0mem, ht0⟩ := hov
  have hne : overlappingSegs s e turns ≠ [] := by
    intro hnil
    rw [overlappingSegs, List.filterMap_eq_nil_iff] at hnil
    have := hnil t0 ht0mem
    simp only [overlapSegOf, if_pos ht0] at this
    exact Option.noConfusion this
  cases hfs : overlappingSegs s e turns with
  | nil => exact absurd hfs hne
  | cons o os =>
    obtain ⟨L₁, L₂, hdec, hlt⟩ := pyMaxBy_first OverlapSeg.overlap_duration os o
    have hle := pyMaxBy_le OverlapSeg.overlap_duration os o
    have hfd : turns.filterMap (overlapSegOf s e) =
        L₁ ++ pyMaxBy OverlapSeg.overlap_duration o os :: L₂ := by
      rw [show turns.filterMap (overlapSegOf s e) = overlappingSegs s e turns from rfl, hfs]
      exact hdec
    obtain ⟨t₁, t, t₂, hturns, hft, hfL₁⟩ := filterMap_decomp _ turns L₁ _ L₂ hfd
    obtain ⟨hdt, hdtpos⟩ := overlapDuration_eq_of_some hft
    have hsp := (overlapSegOf_eq_some hft).2.1
    refine ⟨t₁, t, t₂, hturns, ?_, ?_, ?_, ?_⟩
    · unfold findSpeakerForTimeSegment
      rw [hfs]
      show some (pyMaxBy OverlapSeg.overlap_duration o os).speaker = some t.speaker
      rw [hsp]
    · rw [hdt]; exact hdtpos
    · intro u hu
      cases hfu : overlapSegOf s e u with
      | none =>
        rw [overlapDuration_eq_zero_of_none hfu, hdt]
        exact le_of_lt hdtpos
      | some ou =>
        have hmem : ou ∈ overlappingSegs s e turns :=
          List.mem_filterMap.mpr ⟨u, hu, hfu⟩
        rw [hfs] at hmem
        have hkey := hle ou hmem
        rw [(overlapDuration_eq_of_some hfu).1, hdt]
        exact hkey
    · intro u hu
      cases hfu : overlapSegOf s e u with
      | none =>
        rw [overlapDuration_eq_zero_of_none hfu, hdt]
        exact hdtpos
      | some ou =>
        have hmem : ou ∈ L₁ := by
          rw [← hfL₁]
          exact List.mem_filterMap.mpr ⟨u, hu, hfu⟩
        have hkey := hlt ou hmem
        rw [(overlapDuration_eq_of_some hfu).1, hdt]
        exact hkey

/-- C1 witness at span (0,3), turns [(0,1,"A"), (1,3,"B")]: turn B has the
larger overlap. -/
theorem overlap_voting_max_first_witness :
    (∃ t ∈ [Turn.mk 0 1 "A", Turn.mk 1 3 "B"], max 0 t.start < min 3 t.stop) ∧
    (∃ t₁ t t₂, [Turn.mk 0 1 "A", Turn.mk 1 3 "B"] = t₁ ++ t :: t₂ ∧
      findSpeakerForTimeSegment 0 3 [Turn.mk 0 1 "A", Turn.mk 1 3 "B"] = some t.speaker ∧
      0 < overlapDuration 0 3 t ∧
      (∀ u ∈ [Turn.mk 0 1 "A", Turn.mk 1 3 "B"],
        overlapDuration 0 3 u ≤ overlapDuration 0 3 t) ∧
      (∀ u ∈ t₁, overlapDuration 0 3 u < overlapDuration 0 3 t)) :=
  ⟨by with_unfolding_all decide,
    overlap_voting_max_first 0 3 [Turn.mk 0 1 "A", Turn.mk 1 3 "B"]
      (by with_unfolding_all decide)⟩

/-- C5: when the turn list is non-empty and no turn has positive overlap with
the unit span, the engine assigns the speaker of a turn minimizing
min(|t.start - unit.start|, |t.end - unit.end|); the assignment is a pure
function, so running it twice on identical input gives the same speaker. -/
theorem fallback_nearest_boundary (s e : ℚ) (turns : List Turn)
    (hne : turns ≠ [])
    (hno : ∀ t ∈ turns, ¬ (max s t.start < min e t.stop)) :
    (∃ t ∈ turns, findSpeakerForTimeSegment s e turns = some t.speaker ∧
      ∀ u ∈ turns, nearestKey s e t ≤ nearestKey s e u) ∧
    findSpeakerForTimeSegment s e turns = findSpeakerForTimeSegment s e turns := by
  have hnilov : overlappingSegs s e turns = [] := by
    rw [overlappingSegs, List.filterMap_eq_nil_iff]
    intro t ht
    simp only [overlapSegOf, if_neg (hno t ht)]
  cases turns with
  | nil => exact absurd rfl hne
  | cons t ts =>
    refine ⟨⟨pyMinBy (nearestKey s e) t ts, pyMinBy_mem _ ts t, ?_, ?_⟩, rfl⟩
    · unfold findSpeakerForTimeSegment
      rw [hnilov]
    · intro u hu
      exact pyMinBy_le _ ts t u hu

/-- C5 witness at span (10,11), turns [(0,1,"A"), (5,6,"B")]: no overlap, and
the B turn is nearest. -/
theorem fallback_nearest_boundary_witness :
    ([Turn.mk 0 1 "A", Turn.mk 5 6 "B"] : List Turn) ≠ [] ∧
    (∀ t ∈ [Turn.mk 0 1 "A", Turn.mk 5 6 "B"], ¬ (max 10 t.start < min 11 t.stop)) ∧
    ((∃ t ∈ [Turn.mk 0 1 "A", Turn.mk 5 6 "B"],
        findSpeakerForTimeSegment 10 11 [Turn.mk 0 1 "A", Turn.mk 5 6 "B"] = some t.speaker ∧
        ∀ u ∈ [Turn.mk 0 1 "A", Turn.mk 5 6 "B"], nearestKey 10 11 t ≤ nearestKey 10 11 u) ∧
      findSpeakerForTimeSegment 10 11 [Turn.mk 0 1 "A", Turn.mk 5 6 "B"] =
        findSpeakerForTimeSegment 10 11 [Turn.mk 0 1 "A", Turn.mk 5 6 "B"]) :=
  ⟨by decide, by with_unfolding_all decide,
    fallback_nearest_boundary 10 11 [Turn.mk 0 1 "A", Turn.mk 5 6 "B"]
      (by decide) (by with_unfolding_all decide)⟩

/-- C9 counterexample: the malformed turn (start 20, end 5) is not rejected:
in the no-overlap fallback it is the nearest turn to the span (10,11) and its
speaker "BAD" is assigned, so a malformed turn can determine the speaker. -/
theorem malformed_turn_cex :
    (Turn.mk 20 5 "BAD").stop < (Turn.mk 20 5 "BAD").start ∧
    findSpeakerForTimeSegment 10 11 [Turn.mk 20 5 "BAD", Turn.mk 0 1 "GOOD"] = some "BAD" ∧
    ("BAD" : String) ≠ "GOOD" := by
  refine ⟨by norm_num, by with_unfolding_all decide, by decide⟩

theorem overlappingSegs_filter_wf (s e : ℚ) (turns : List Turn) :
    overlappingSegs s e turns =
      overlappingSegs s e (turns.filter fun t => t.start ≤ t.stop) := by
  induction turns with
  | nil => rfl
  | cons t ts ih =>
    simp only [overlappingSegs] at ih ⊢
    by_cases h : t.start ≤ t.stop
    · rw [List.filter_cons, if_pos (by simpa using h), List.filterMap_cons, List.filterMap_cons]
      cases hfa : overlapSegOf s e t with
      | none => rw [ih]
      | some o => rw [ih]
    · have hss : t.stop < t.start := lt_of_not_le h
      have hnone : overlapSegOf s e t = none := by
        simp only [overlapSegOf]
        apply if_neg
        intro hlt
        have h1 : min e t.stop ≤ t.stop := min_le_right _ _
        have h2 : t.start ≤ max s t.start := le_max_right _ _
        linarith
      rw [List.filter_cons, if_neg (by simpa using h), List.filterMap_cons, hnone]
      exact ih

theorem findSpeaker_isSome (s e : ℚ) (turns : List Turn) (hne : turns ≠ []) :
    (findSpeakerForTimeSegment s e turns).isSome = true := by
  unfold findSpeakerForTimeSegment
  cases hfs : overlappingSegs s e turns with
  | cons o os => rfl
  | nil =>
    cases turns with
    | nil => exact absurd rfl hne
    | cons t ts => rfl

/-- C9 (amended): a malformed turn (end < start) can never have positive
overlap, so the overlap-voting pool is unchanged if malformed turns are
filtered out, and assignment on a non-empty list always yields a speaker
(no fault); but malformed turns are NOT rejected at ingestion and do take part
in the nearest-boundary fallback, where one can determine the assigned
speaker. -/
theorem malformed_turn_handling (s e : ℚ) (turns : List Turn) (hne : turns ≠ []) :
    overlappingSegs s e turns =
      overlappingSegs s e (turns.filter fun t => t.start ≤ t.stop) ∧
    (findSpeakerForTimeSegment s e turns).isSome = true :=
  ⟨overlappingSegs_filter_wf s e turns, findSpeaker_isSome s e turns hne⟩

/-- C9 witness at span (10,11), turns [(20,5,"BAD"), (0,1,"GOOD")]. -/
theorem malformed_turn_handling_witness :
    ([Turn.mk 20 5 "BAD", Turn.mk 0 1 "GOOD"] : List Turn) ≠ [] ∧
    (overlappingSegs 10 11 [Turn.mk 20 5 "BAD", Turn.mk 0 1 "GOOD"] =
      overlappingSegs 10 11
        (([Turn.mk 20 5 "BAD", Turn.mk 0 1 "GOOD"] : List Turn).filter
          fun t => t.start ≤ t.stop) ∧
    (findSpeakerForTimeSegment 10 11 [Turn.mk 20 5 "BAD", Turn.mk 0 1 "GOOD"]).isSome = true) :=
  ⟨by decide, malformed_turn_handling 10 11 [Turn.mk 20 5 "BAD", Turn.mk 0 1 "GOOD"] (by decide)⟩

/-- C8 (code bug evidence): on transcript "a b" with duration 2 and the single
turn (1,2,"S"), word "a" (instant 0) is contained in no turn and accumulates
under the unset speaker; when word "b" (instant 1) matches turn "S", the
mid-loop flush emits the accumulated run as a line labelled with Python's
str(None), so the output is "[None] a\n\n[S] b" instead of suppressing the
attribution of the leading unmatched run. -/
theorem word_level_none_label_emitted :
    applySpeakerLabelsToTranscript "a b" [Turn.mk 1 2 "S"] 2 = "[None] a\n\n[S] b" := by
  with_unfolding_all decide

theorem findSpeakerForWord_eq_none (t : ℚ) (segs : List Turn)
    (h : ∀ seg ∈ segs, ¬ (seg.start ≤ t ∧ t ≤ seg.stop)) :
    findSpeakerForWord t segs = none := by
  induction segs with
  | nil => rfl
  | cons seg rest ih =>
    simp only [findSpeakerForWord]
    rw [if_neg (h seg (List.mem_cons_self _ _))]
    exact ih fun s hs => h s (List.mem_cons_of_mem _ hs)

theorem alFold_no_match (segs : List Turn) (tpw : ℚ) (ws : List String) :
    ∀ st : ALState, st.current_speaker = none →
      (∀ j : ℕ, st.word_index ≤ j → j < st.word_index + ws.length →
        findSpeakerForWord ((j : ℚ) * tpw) segs = none) →
      (ws.foldl (alStep segs tpw) st).current_speaker = none ∧
      (ws.foldl (alStep segs tpw) st).result_lines = st.result_lines := by
  induction ws with
  | nil => intro st hcur _; exact ⟨hcur, rfl⟩
  | cons w ws ih =>
    intro st hcur hmatch
    simp only [List.length_cons] at hmatch
    rw [List.foldl_cons]
    have hspw : findSpeakerForWord ((st.word_index : ℚ) * tpw) segs = none :=
      hmatch st.word_index (le_refl _) (by omega)
    have hcs : (alStep segs tpw st w).current_speaker = st.current_speaker := by
      simp [alStep, hspw, truthy]
    have hrl : (alStep segs tpw st w).result_lines = st.result_lines := by
      simp [alStep, hspw, truthy]
    have hwi : (alStep segs tpw st w).word_index = st.word_index + 1 := by
      simp [alStep, hspw, truthy]
    have hmatch2 : ∀ j : ℕ, (alStep segs tpw st w).word_index ≤ j →
        j < (alStep segs tpw st w).word_index + ws.length →
        findSpeakerForWord ((j : ℚ) * tpw) segs = none := by
      intro j hj1 hj2
      rw [hwi] at hj1 hj2
      exact hmatch j (by omega) (by omega)
    obtain ⟨h1, h2⟩ := ih (alStep segs tpw st w) (hcs.trans hcur) hmatch2
    exact ⟨h1, h2.trans hrl⟩

/-- C10: with a non-empty word list and non-empty diarization list, if no turn
interval contains any estimated word instant i * (duration / word_count), every
word stays under the unset speaker, the final flush is suppressed, and the
function returns the empty string: the whole transcript is dropped from the
attributed output. -/
theorem no_containment_empty_output (transcript_text : String)
    (diarization_segments : List Turn) (audio_duration : ℚ)
    (hsegs : diarization_segments ≠ [])
    (hwords : pySplit transcript_text ≠ [])
    (hnone : ∀ i : ℕ, i < (pySplit transcript_text).length →
      ∀ seg ∈ diarization_segments,
        ¬ (seg.start ≤ (i : ℚ) * (audio_duration / ((pySplit transcript_text).length : ℚ)) ∧
           (i : ℚ) * (audio_duration / ((pySplit transcript_text).length : ℚ)) ≤ seg.stop)) :
    applySpeakerLabelsToTranscript transcript_text diarization_segments audio_duration = "" := by
  obtain ⟨hcs, hrl⟩ := alFold_no_match diarization_segments
    (audio_duration / ((pySplit transcript_text).length : ℚ)) (pySplit transcript_text)
    { result_lines := [], current_speaker := none, current_text := [], word_index := 0 }
    rfl
    (fun j hj1 hj2 => findSpeakerForWord_eq_none _ _
      (hnone j (by simpa using hj2)))
  simp only [applySpeakerLabelsToTranscript, hsegs, hwords, if_neg, ite_false,
    if_neg hsegs, if_neg hwords]
  simp [hcs, hrl, truthy, joinSep]

/-- C10 witness at transcript "a b", one far-away turn (10,11), duration 2:
word instants 0 and 1 are contained in no turn and the output is empty. -/
theorem no_containment_empty_output_witness :
    ([Turn.mk 10 11 "S"] : List Turn) ≠ [] ∧
    pySplit "a b" ≠ [] ∧
    (∀ i : ℕ, i < (pySplit "a b").length →
      ∀ seg ∈ ([Turn.mk 10 11 "S"] : List Turn),
        ¬ (seg.start ≤ (i : ℚ) * (2 / ((pySplit "a b").length : ℚ)) ∧
           (i : ℚ) * (2 / ((pySplit "a b").length : ℚ)) ≤ seg.stop)) ∧
    applySpeakerLabelsToTranscript "a b" [Turn.mk 10 11 "S"] 2 = "" :=
  ⟨by decide, by with_unfolding_all decide, by with_unfolding_all decide,
    no_containment_empty_output "a b" [Turn.mk 10 11 "S"] 2 (by decide)
      (by with_unfolding_all decide) (by with_unfolding_all decide)⟩
